import Mathlib

set_option maxHeartbeats 1000000

/-!
Verification of the LSM-tree key-value engine: Bloom filter (`lsm/bloom`),
sorted runs (`lsm/sstable`), write buffer (`lsm/memtable`), compaction
policies (`lsm/compaction`) and the coordinator (`lsm/lsmtree`), shallowly
embedded from the Go sources.  Strings are modelled as Lean strings with the
byte view given by UTF-8 encoding (Go's `[]byte(s)`), and 64-bit machine
arithmetic as `Nat` reduced modulo `2 ^ 64`.
-/

namespace LSM

/-- UTF-8 encoding of one Unicode code point, as in Go's string-to-bytes
conversion. -/
def encodeChar (n : Nat) : List Nat :=
  if n < 0x80 then [n]
  else if n < 0x800 then [0xC0 + n / 64, 0x80 + n % 64]
  else if n < 0x10000 then [0xE0 + n / 4096, 0x80 + n / 64 % 64, 0x80 + n % 64]
  else [0xF0 + n / 262144, 0x80 + n / 4096 % 64, 0x80 + n / 64 % 64, 0x80 + n % 64]

/-- Byte sequence of a string, Go `[]byte(s)`. -/
def strBytes (s : String) : List Nat :=
  s.data.foldr (fun c acc => encodeChar c.toNat ++ acc) []

def fnvOffset : Nat := 14695981039346656037

def fnvPrime : Nat := 1099511628211

/-- One step of FNV-1a-64: xor in a byte, multiply by the prime, with 64-bit
wraparound. -/
def fnvStep (h b : Nat) : Nat := ((h ^^^ b) * fnvPrime) % 2 ^ 64

/-- FNV-1a 64-bit hash of a byte sequence: `hash/fnv` `New64a`, `Write`,
`Sum64`.  Go's `uint(h.Sum64())` is the identity on 64-bit platforms. -/
def fnv64a (bytes : List Nat) : Nat := bytes.foldl fnvStep fnvOffset

/-- `bloom.Bloom`: a byte-per-bit array plus the hash count `k`. -/
structure Bloom where
  bits : List Nat
  k : Nat
deriving DecidableEq

/-- `bloom.New(m, k)`: all bits clear.  It cannot fail. -/
def Bloom.new (m k : Nat) : Bloom := ⟨List.replicate m 0, k⟩

/-- `Bloom.hashes`: for each `i < k`, FNV-1a over the byte `i` (Go `byte(i)`,
hence `i % 256`) followed by the key bytes. -/
def Bloom.hashes (b : Bloom) (s : String) : List Nat :=
  (List.range b.k).map fun i => fnv64a (i % 256 :: strBytes s)

/-- Core of `Bloom.Add` in the non-panicking case: set every derived
position.  `List.set` preserves length, so Go's per-iteration
`len(b.bits)` is the constant `b.bits.length`. -/
def Bloom.addT (b : Bloom) (s : String) : Bloom :=
  ⟨(b.hashes s).foldl (fun bs idx => bs.set (idx % b.bits.length) 1) b.bits, b.k⟩

/-- `Bloom.Add`; `none` models the Go runtime panic (`idx % 0`) that occurs
when the bit array is empty and at least one index is derived. -/
def Bloom.add (b : Bloom) (s : String) : Option Bloom :=
  if b.k ≠ 0 ∧ b.bits.length = 0 then none else some (b.addT s)

/-- Core of `Bloom.Contains` in the non-panicking case: every derived
position is nonzero. -/
def Bloom.containsT (b : Bloom) (s : String) : Bool :=
  (b.hashes s).all fun idx => b.bits.getD (idx % b.bits.length) 0 != 0

/-- `Bloom.Contains`, with `none` for the panic on an empty bit array. -/
def Bloom.contains (b : Bloom) (s : String) : Option Bool :=
  if b.k ≠ 0 ∧ b.bits.length = 0 then none else some (b.containsT s)

/-- A sequence of `Bloom.Add` calls. -/
def Bloom.addAll (b : Bloom) (keys : List String) : Option Bloom :=
  keys.foldlM Bloom.add b

/-- Total fold of `Bloom.addT` over a list of keys. -/
def Bloom.addAllT (b : Bloom) (keys : List String) : Bloom :=
  keys.foldl Bloom.addT b

theorem foldl_set_length (g : Nat → Nat) :
    ∀ (ps : List Nat) (l : List Nat),
      (ps.foldl (fun bs idx => bs.set (g idx) 1) l).length = l.length := by
  intro ps
  induction ps with
  | nil => intro l; rfl
  | cons a ps ih => intro l; simp [List.foldl, ih, List.length_set]

theorem foldl_set_getD_ne_zero (g : Nat → Nat) :
    ∀ (ps : List Nat) (l : List Nat) (p : Nat), l.getD p 0 ≠ 0 →
      (ps.foldl (fun bs idx => bs.set (g idx) 1) l).getD p 0 ≠ 0 := by
  intro ps
  induction ps with
  | nil => intro l p h; exact h
  | cons a ps ih =>
    intro l p h
    refine ih _ _ ?_
    simp only [List.getD_eq_getElem?_getD, List.getElem?_set]
    split
    · split
      · simp
      · simp only [Option.getD_none]
        simp_all [List.getD_eq_getElem?_getD]
        rename_i hij hlen
        rw [← hij] at h
        rw [List.getElem?_eq_none (by omega)] at h
        simp at h
    · simpa [List.getD_eq_getElem?_getD] using h

theorem foldl_set_getD_mem (L : Nat) (hL : 0 < L) :
    ∀ (ps : List Nat) (l : List Nat), l.length = L → ∀ p ∈ ps,
      (ps.foldl (fun bs idx => bs.set (idx % L) 1) l).getD (p % L) 0 ≠ 0 := by
  intro ps
  induction ps with
  | nil => intro l _ p hp; cases hp
  | cons a ps ih =>
    intro l hlen p hp
    rcases List.mem_cons.mp hp with h | h
    · subst h
      refine foldl_set_getD_ne_zero (· % L) ps _ _ ?_
      have hlt : p % L < l.length := by rw [hlen]; exact Nat.mod_lt _ hL
      simp [List.getD_eq_getElem?_getD, List.getElem?_set, hlt]
    · exact ih (l.set (a % L) 1) (by simp [hlen]) p h

theorem addT_bits_length (b : Bloom) (s : String) :
    (b.addT s).bits.length = b.bits.length :=
  foldl_set_length _ _ _

theorem addT_k (b : Bloom) (s : String) : (b.addT s).k = b.k := rfl

/-- Freshly added keys are reported present (all derived positions are set). -/
theorem containsT_addT_self (b : Bloom) (s : String) (h : 0 < b.bits.length) :
    (b.addT s).containsT s = true := by
  unfold Bloom.containsT
  rw [List.all_eq_true]
  intro idx hidx
  have hlen : (b.addT s).bits.length = b.bits.length := addT_bits_length b s
  have hhash : (b.addT s).hashes s = b.hashes s := rfl
  rw [hhash] at hidx
  rw [hlen]
  simp only [bne_iff_ne, ne_eq]
  exact foldl_set_getD_mem b.bits.length h _ b.bits rfl idx hidx

/-- `addT` never clears a set position: positive `containsT` answers are
stable under further additions. -/
theorem containsT_addT_mono (b : Bloom) (s other : String)
    (h : b.containsT s = true) : (b.addT other).containsT s = true := by
  unfold Bloom.containsT at h ⊢
  rw [List.all_eq_true] at h ⊢
  intro idx hidx
  have hlen : (b.addT other).bits.length = b.bits.length := addT_bits_length b other
  have hhash : (b.addT other).hashes s = b.hashes s := rfl
  rw [hhash] at hidx
  rw [hlen]
  have := h idx hidx
  simp only [bne_iff_ne, ne_eq] at this ⊢
  exact foldl_set_getD_ne_zero _ _ _ _ this

theorem containsT_addAllT_mono (b : Bloom) (s : String) (keys : List String)
    (h : b.containsT s = true) : (b.addAllT keys).containsT s = true := by
  induction keys generalizing b with
  | nil => exact h
  | cons a keys ih => exact ih (b.addT a) (containsT_addT_mono b s a h)

theorem addAllT_bits_length (b : Bloom) (keys : List String) :
    (b.addAllT keys).bits.length = b.bits.length := by
  induction keys generalizing b with
  | nil => rfl
  | cons a keys ih =>
    show ((b.addT a).addAllT keys).bits.length = _
    rw [ih, addT_bits_length]

theorem addAllT_k (b : Bloom) (keys : List String) : (b.addAllT keys).k = b.k := by
  induction keys generalizing b with
  | nil => rfl
  | cons a keys ih => exact ih (b.addT a)

/-- On a filter with a nonempty bit array, `Add` never panics and `addAll`
is the plain fold of `addT`. -/
theorem addAll_eq_addAllT (b : Bloom) (keys : List String)
    (h : 0 < b.bits.length) : b.addAll keys = some (b.addAllT keys) := by
  induction keys generalizing b with
  | nil => rfl
  | cons a keys ih =>
    have hadd : b.add a = some (b.addT a) := by
      unfold Bloom.add
      rw [if_neg]
      intro ⟨_, hlen⟩
      omega
    show (a :: keys).foldlM Bloom.add b = _
    rw [List.foldlM_cons, hadd]
    exact ih (b.addT a) (by rw [addT_bits_length]; exact h)

/-- `memtable.KV`. -/
structure KV where
  key : String
  value : String
deriving DecidableEq

/-- Go `strings.SplitN(s, "\t", 2)`: the part before the first tab, and —
when a tab exists — everything after it (so `none` means `len(parts) = 1`). -/
def splitTab (s : String) : String × Option String :=
  let pre := s.data.takeWhile (· ≠ '\t')
  let rest := s.data.dropWhile (· ≠ '\t')
  match rest with
  | [] => (⟨pre⟩, none)
  | _ :: tl => (⟨pre⟩, some ⟨tl⟩)

/-- `sstable.SSTable`: a run file, identified by the sequence number
embedded in its file name `ss-<id>.sst`, with its text lines and the Bloom
filter over its keys.  All runs live in one directory, so the shared
directory prefix is dropped from the modelled path. -/
structure SSTable where
  id : Nat
  lines : List String
  bloom : Bloom
deriving DecidableEq

/-- The base file name `ss-<id>.sst` of a run (`fmt.Sprintf("ss-%d.sst", id)`). -/
def pathOf (id : Nat) : String := "ss-" ++ toString id ++ ".sst"

/-- `sstable.New(path, kvs)`: serialize `key<TAB>value` lines and build a
Bloom filter of `len(kvs)*8 + 1` bits and `3` hashes holding every key.
The bit count is positive, so the `Add` calls cannot panic
(`addAll_eq_addAllT`) and the total fold `addAllT` is used. -/
def SSTable.new (id : Nat) (kvs : List KV) : SSTable :=
  { id := id
    lines := kvs.map fun kv => kv.key ++ "\t" ++ kv.value
    bloom := (Bloom.new (kvs.length * 8 + 1) 3).addAllT (kvs.map KV.key) }

/-- `sstable.Load(path)` given the lines read from the file: count the
lines, rebuild a filter with the same sizing formula, and add each line's
part before the first tab (`parts[0]`, which exists for every line since
`SplitN` always returns at least one part). -/
def SSTable.loadT (id : Nat) (ls : List String) : SSTable :=
  { id := id
    lines := ls
    bloom := (Bloom.new (ls.length * 8 + 1) 3).addAllT
      (ls.map fun line => (splitTab line).1) }

/-- `sstable.Load` as the caller sees it: the error component is reserved
for I/O failures, which cannot occur once the file's lines are given —
the record-scanning loop itself has no failure path. -/
def SSTable.load (id : Nat) (ls : List String) : Except String SSTable :=
  Except.ok (SSTable.loadT id ls)

/-- `SSTable.Get`: consult the filter; on a positive answer scan the lines
for the first one splitting into exactly `key` and a value
(`len(parts) == 2 && parts[0] == key`). -/
def SSTable.get (t : SSTable) (key : String) : Option String :=
  if t.bloom.containsT key = false then none
  else t.lines.findSome? fun line =>
    match splitTab line with
    | (k, some v) => if k = key then some v else none
    | (_, none) => none

/-- On-disk byte size of a run file (`os.Stat(path).Size()`): each line is
written once followed by a newline, in UTF-8 bytes. -/
def tableSize (t : SSTable) : Nat :=
  t.lines.foldl (fun acc line => acc + (strBytes line).length + 1) 0

/-- Insert-or-overwrite into the association-list model of a Go
`map[string]string`; keys stay unique by construction. -/
def upsert (m : List KV) (key value : String) : List KV :=
  if m.any (fun kv => kv.key == key) then
    m.map fun kv => if kv.key == key then ⟨key, value⟩ else kv
  else m ++ [⟨key, value⟩]

/-- Lexicographic `≤` on byte sequences. -/
def bytesLe : List Nat → List Nat → Bool
  | [], _ => true
  | _ :: _, [] => false
  | a :: as, b :: bs =>
    if a < b then true else if b < a then false else bytesLe as bs

/-- Go string comparison is lexicographic on the UTF-8 bytes. -/
def strLe (a b : String) : Bool := bytesLe (strBytes a) (strBytes b)

/-- Sort records by key: `sort.Slice` with `Key <`.  Keys are unique in
every list being sorted, so Go's unstable sort is deterministic and agrees
with any comparison sort by `≤`. -/
def sortKVs (kvs : List KV) : List KV :=
  kvs.insertionSort fun a b => strLe a.key b.key = true

/-- `memtable.Memtable`: the `Data` map modelled as an association list
with unique keys.  Go's map iteration order is irrelevant because the only
consumer of the raw contents (`Flush`) sorts them. -/
structure Memtable where
  data : List KV
  flushThreshold : Nat
deriving DecidableEq

def Memtable.new (threshold : Nat) : Memtable := ⟨[], threshold⟩

/-- `Memtable.Put`: insert or overwrite. -/
def Memtable.put (m : Memtable) (key value : String) : Memtable :=
  { m with data := upsert m.data key value }

/-- `Memtable.Get`. -/
def Memtable.get (m : Memtable) (key : String) : Option String :=
  (m.data.find? fun kv => kv.key == key).map KV.value

/-- `Memtable.IsFull`: distinct-key count reached the threshold. -/
def Memtable.isFull (m : Memtable) : Bool :=
  decide (m.flushThreshold ≤ m.data.length)

/-- `Memtable.Flush`: the sorted snapshot plus the emptied buffer. -/
def Memtable.flush (m : Memtable) : List KV × Memtable :=
  (sortKVs m.data, { m with data := [] })

/-- `compaction.Strategy` (Go interface): the two decision operations the
engine dispatches on (`Name` is purely diagnostic and omitted). -/
structure Strategy where
  shouldCompact : List SSTable → Bool
  selectTables : List SSTable → List SSTable

/-- `lsmtree.LSMTree` of `part_000` (the basic variant of
`lsm/lsmtree/lsmtree.go` is the `strategy = none` case of the operations
below).  The optional strategy is passed to the operations rather than
stored; the statistics fields influence no claim and are omitted. -/
structure LSMTree where
  mem : Memtable
  tables : List SSTable
  nextID : Nat
deriving DecidableEq

/-- A fresh engine over an empty directory. -/
def LSMTree.openEmpty (threshold : Nat) : LSMTree :=
  ⟨Memtable.new threshold, [], 0⟩

/-- `LSMTree.flush`: write the sorted buffer as run `ss-<nextID>.sst`,
append it to the run list, bump the sequence counter. -/
def LSMTree.flush (t : LSMTree) : LSMTree :=
  let fl := t.mem.flush
  { mem := fl.2
    tables := t.tables ++ [SSTable.new t.nextID fl.1]
    nextID := t.nextID + 1 }

/-- The merge loop shared by `Compact` and `CompactWithStrategy`: scan the
given tables in the given order, upserting every well-formed record
(`len(parts) == 2`), so a later table in the iteration overrides an
earlier one. -/
def mergeTables (tables : List SSTable) : List KV :=
  tables.foldl
    (fun acc tbl =>
      tbl.lines.foldl
        (fun acc line =>
          match splitTab line with
          | (k, some v) => upsert acc k v
          | (_, none) => acc)
        acc)
    []

/-- `LSMTree.Compact`: merge all tables, in run-list order, into one new
run replacing them all; no-op when fewer than two tables exist. -/
def LSMTree.compact (t : LSMTree) : LSMTree :=
  if t.tables.length < 2 then t
  else
    { t with
      tables := [SSTable.new t.nextID (sortKVs (mergeTables t.tables))]
      nextID := t.nextID + 1 }

/-- `LSMTree.CompactWithStrategy` with a configured strategy: re-check
`ShouldCompact`, merge the selected tables IN THE ORDER THE STRATEGY
RETURNED THEM, delete exactly the selected tables (identified by path;
the path `ss-<id>.sst` is injective in `id`), and append the merged run. -/
def LSMTree.compactWithStrategy (s : Strategy) (t : LSMTree) : LSMTree :=
  if s.shouldCompact t.tables then
    let selected := s.selectTables t.tables
    if selected.length < 2 then t
    else
      let newTable := SSTable.new t.nextID (sortKVs (mergeTables selected))
      let selIds := selected.map SSTable.id
      let remaining := t.tables.filter fun tbl => !(selIds.contains tbl.id)
      { t with tables := remaining ++ [newTable], nextID := t.nextID + 1 }
  else t

/-- `LSMTree.Put`: write to the buffer; once full, flush, then — only with
a strategy configured — run policy compaction synchronously if indicated. -/
def LSMTree.put (strat : Option Strategy) (t : LSMTree) (key value : String) :
    LSMTree :=
  let t' := { t with mem := t.mem.put key value }
  if t'.mem.isFull then
    let t'' := t'.flush
    match strat with
    | some s =>
      if s.shouldCompact t''.tables then t''.compactWithStrategy s else t''
    | none => t''
  else t'

/-- The SSTable scan of `LSMTree.Get`, on the already-reversed
(newest-first) run list: skip a table whose filter rejects the key
(`Bloom != nil` holds for every table built by `New` or `Load`, and the
filter's bit array is nonempty, so `Contains` cannot panic), otherwise
query the table and stop on a hit. -/
def getFromTables : List SSTable → String → Option String
  | [], _ => none
  | tbl :: rest, key =>
    if tbl.bloom.containsT key = false then getFromTables rest key
    else
      match tbl.get key with
      | some v => some v
      | none => getFromTables rest key

/-- `LSMTree.Get`: buffer first, then runs newest to oldest. -/
def LSMTree.get (t : LSMTree) (key : String) : Option String :=
  match t.mem.get key with
  | some v => some v
  | none => getFromTables t.tables.reverse key

/-- `sort.Slice` of the loaded tables by `Path <`: lexicographic string
order on the file names (the shared directory prefix cannot affect it). -/
def sortByPath (ts : List SSTable) : List SSTable :=
  ts.insertionSort fun a b => strLe (pathOf a.id) (pathOf b.id) = true

/-- `newLSMTree` re-opening a directory that holds the given run files
(sequence number and lines per file): load each `.sst` file, sort the
loaded tables by path, and set `nextID` to the COUNT of tables found. -/
def newLSMTree (threshold : Nat) (files : List (Nat × List String)) : LSMTree :=
  { mem := Memtable.new threshold
    tables := sortByPath (files.map fun f => SSTable.loadT f.1 f.2)
    nextID := files.length }

/-- The run files present on disk for a state reached without I/O errors. -/
def diskFiles (t : LSMTree) : List (Nat × List String) :=
  t.tables.map fun tbl => (tbl.id, tbl.lines)

/-- The engine-state sequence-number invariant (spec §3, Engine State): no
two runs share a sequence number, and the next number to be issued is
strictly greater than every existing run's number. -/
def seqInvariant (t : LSMTree) : Prop :=
  (t.tables.map SSTable.id).Nodup ∧ ∀ tbl ∈ t.tables, tbl.id < t.nextID

/-- `SizeTieredStrategy.groupBySize` with the default `SizeRatio = 2.0`:
sort by file size ascending, then cut a new tier whenever
`float64(size)/float64(lastSize) > 2.0`; the float test is exact for the
integer sizes involved and is written `2 * lastSize < size`. -/
def groupBySize (tables : List SSTable) : List (List SSTable) :=
  let sorted := tables.insertionSort fun a b => tableSize a ≤ tableSize b
  let r := sorted.foldl
    (fun (acc : List (List SSTable) × List SSTable × Nat) tbl =>
      let size := tableSize tbl
      if acc.2.2 = 0 ∨ size ≤ 2 * acc.2.2 then
        (acc.1, acc.2.1 ++ [tbl], size)
      else
        ((if acc.2.1.isEmpty then acc.1 else acc.1 ++ [acc.2.1]), [tbl], size))
    ([], [], 0)
  if r.2.1.isEmpty then r.1 else r.1 ++ [r.2.1]

/-- `SizeTieredStrategy.ShouldCompact`. -/
def sizeTieredShouldCompact (minTables maxTableSize : Nat)
    (tables : List SSTable) : Bool :=
  if tables.length < minTables then false
  else if (groupBySize tables).any (fun tier => decide (minTables ≤ tier.length))
  then true
  else tables.any fun tbl => decide (maxTableSize < tableSize tbl)

/-- `SizeTieredStrategy.SelectTables`: the first tier with the most tables
(strict improvement, starting from the empty best). -/
def sizeTieredSelectTables (tables : List SSTable) : List SSTable :=
  (groupBySize tables).foldl
    (fun best tier => if best.length < tier.length then tier else best) []

/-- `NewSizeTieredStrategy()`: `MinTables = 4`, `SizeRatio = 2.0`,
`MaxTableSize = 1024*1024`. -/
def newSizeTieredStrategy : Strategy :=
  ⟨sizeTieredShouldCompact 4 (1024 * 1024), sizeTieredSelectTables⟩

/-- A run file together with the `os.Stat` information the time-based
strategy consults: its last-modified time in Unix seconds, `none` when
`Stat` fails. -/
structure StatTable where
  modTimeUnix : Option Nat
deriving DecidableEq

/-- `TimeBasedStrategy.isOld` AS WRITTEN IN THE CODE: it computes
`age := int64(info.ModTime().Unix())` — the absolute timestamp, not an
age — and returns `age > t.MaxAge`; `false` when `Stat` fails. -/
def isOld (maxAge : Nat) (t : StatTable) : Bool :=
  match t.modTimeUnix with
  | some mt => decide (maxAge < mt)
  | none => false

/-- `TimeBasedStrategy.ShouldCompact`. -/
def timeShouldCompact (maxAge minTables : Nat) (ts : List StatTable) : Bool :=
  if ts.length < minTables then false
  else decide (minTables ≤ (ts.filter (isOld maxAge)).length)

/-- `TimeBasedStrategy.SelectTables`: exactly the tables `isOld` accepts,
order preserved. -/
def timeSelectTables (maxAge : Nat) (ts : List StatTable) : List StatTable :=
  ts.filter (isOld maxAge)

/-- `NewTimeBasedStrategy()` default `MaxAge`: one hour. -/
def newTimeBasedStrategyMaxAge : Nat := 3600

/-- `NewTimeBasedStrategy()` default `MinTables`. -/
def newTimeBasedStrategyMinTables : Nat := 3

/-- The claim's reading of `isOld`, following the spec's words: a run's
age, measured from its on-disk last-modified time to the current time,
exceeds the maximum age. -/
def isOldSpec (now maxAge : Nat) (t : StatTable) : Bool :=
  match t.modTimeUnix with
  | some mt => decide (maxAge < now - mt)
  | none => false

/-- `bloom.NewEnhanced` sizing (`enhanced_bloom.go`): the two Go `float64`
expressions modelled over ℝ (`math.Log` is the natural logarithm); Go's
`uint(x)` conversion truncates toward zero, i.e. `⌊x⌋₊` for the
nonnegative values arising here; then the three clamps, in program order.
Note `k` is computed from `m` BEFORE `m` is clamped. -/
noncomputable def newEnhancedParams (n : Nat) (p : ℝ) : Nat × Nat :=
  let m := ⌊-(n : ℝ) * Real.log p / (Real.log 2 * Real.log 2)⌋₊
  let k := ⌊(m : ℝ) / (n : ℝ) * Real.log 2⌋₊
  let m' := if m < 8 then 8 else m
  let k' := if k < 1 then 1 else k
  let k'' := if k' > 10 then 10 else k'
  (m', k'')

/-- The sizing the claim states: `m = ⌈-n·ln p / (ln 2)²⌉` and
`k = round((m/n)·ln 2)`, with the same clamps. -/
noncomputable def newEnhancedParamsSpec (n : Nat) (p : ℝ) : Nat × Nat :=
  let m := ⌈-(n : ℝ) * Real.log p / (Real.log 2 * Real.log 2)⌉₊
  let k := (round ((m : ℝ) / (n : ℝ) * Real.log 2)).toNat
  let m' := if m < 8 then 8 else m
  let k' := if k < 1 then 1 else k
  let k'' := if k' > 10 then 10 else k'
  (m', k'')

/-!
Concrete engine runs used to settle the claims.  All of them start from a
fresh engine over an empty directory with flush threshold 1, so every put
flushes immediately and the run set is fully determined by the puts.
-/

/-- Three puts with the default size-tiered strategy configured: runs
`ss-0` … `ss-2` of byte sizes 7, 5 and 4; too few tables to compact. -/
def sizeTieredPuts : LSMTree :=
  (((LSMTree.openEmpty 1).put (some newSizeTieredStrategy) "aaa" "11").put
      (some newSizeTieredStrategy) "aa" "x").put
    (some newSizeTieredStrategy) "a" "y"

/-- The state during the fourth put, `put("aaa", "2")`, right after its
flush created run `ss-3` (size 6) and before the policy compaction that
the put then performs: four runs of sizes 7, 5, 4, 6, forming one size
tier of four tables once sorted ascending (ratios 5/4, 6/5, 7/6 ≤ 2.0). -/
def sizeTieredPreCompact : LSMTree :=
  LSMTree.flush { sizeTieredPuts with mem := sizeTieredPuts.mem.put "aaa" "2" }

/-- The state after the fourth put returns. -/
def sizeTieredFinal : LSMTree :=
  sizeTieredPuts.put (some newSizeTieredStrategy) "aaa" "2"

/-- Basic engine: two puts (runs `ss-0`, `ss-1`), then `Compact`, leaving
the single run `ss-2` and `nextID = 3`. -/
def compactThenReopenRun : LSMTree :=
  (((LSMTree.openEmpty 1).put none "a" "1").put none "b" "2").compact

/-- Basic engine: eleven puts of the same key, producing runs
`ss-0` … `ss-10`. -/
def elevenFlushesRun : LSMTree :=
  (List.range 11).foldl (fun t i => t.put none "k" (toString i))
    (LSMTree.openEmpty 1)

/-- C1.  The fourth put of the scenario triggers a size-tiered policy
compaction; `SelectTables` returns the single tier sorted by file size
(`ss-2`, `ss-1`, `ss-3`, `ss-0`), and the merge processes them in that
order, so the OLDEST run `ss-0` overrides: key `aaa` ends at `11` although
its last written value before the compaction was `2`.  The claim's
run-count clause does hold here (4 runs, 4 selected, 1 remains), but
value preservation fails.  This contradicts the code's own comment
"Process tables in order (newer tables override older ones)". -/
theorem c1_policy_compaction_loses_last_write :
    sizeTieredPreCompact.get "aaa" = some "2" ∧
    sizeTieredPreCompact.tables.length = 4 ∧
    sizeTieredPreCompact.compactWithStrategy newSizeTieredStrategy =
      sizeTieredFinal ∧
    sizeTieredFinal.get "aaa" = some "11" ∧
    sizeTieredFinal.tables.length = 1 := by
  refine ⟨?_, ?_, ?_, ?_, ?_⟩ <;> rfl

/-- C2.  A `get("aaa")` issued immediately after `put("aaa", "2")`, with no
intervening operation, returns `("11", true)`: the put triggered a flush
and a synchronous size-tiered compaction that merged the selected runs in
file-size order, letting the oldest run's value override the newest. -/
theorem c2_get_after_put_misses_after_policy_compaction :
    sizeTieredFinal.get "aaa" = some "11" ∧ some "11" ≠ some "2" := by
  exact ⟨rfl, by decide⟩

/-- C4.  After two flushes and a compaction the only run on disk is
`ss-2.sst`; re-opening the directory sets the next sequence number to the
COUNT of runs found (1) instead of one past the highest (3), so the next
number to be issued is NOT greater than the existing run's number 2 and
the sequence invariant fails at this reachable state. -/
theorem c4_reopen_breaks_seq_invariant :
    (diskFiles compactThenReopenRun).map Prod.fst = [2] ∧
    (newLSMTree 1 (diskFiles compactThenReopenRun)).nextID = 1 ∧
    ¬ seqInvariant (newLSMTree 1 (diskFiles compactThenReopenRun)) := by
  refine ⟨rfl, rfl, ?_⟩
  unfold seqInvariant
  decide

/-- C5.  The engine itself produces the run files `ss-0.sst` … `ss-10.sst`
(eleven flushes); re-opening sorts them lexicographically by name, which
places `ss-10.sst` between `ss-1.sst` and `ss-2.sst`: the recovered order
is not recency order, and a read of the key returns the value of run
`ss-9` instead of the newest run `ss-10`. -/
theorem c5_sort_by_name_not_recency :
    (diskFiles elevenFlushesRun).map Prod.fst =
      [0, 1, 2, 3, 4, 5, 6, 7, 8, 9, 10] ∧
    ((newLSMTree 1 (diskFiles elevenFlushesRun)).tables.map SSTable.id) =
      [0, 1, 10, 2, 3, 4, 5, 6, 7, 8, 9] ∧
    ¬ ((newLSMTree 1 (diskFiles elevenFlushesRun)).tables.map
        SSTable.id).Sorted (· ≤ ·) ∧
    (newLSMTree 1 (diskFiles elevenFlushesRun)).get "k" = some "9" := by
  refine ⟨rfl, rfl, by decide, rfl⟩

/-- C6.  `isOld` compares the run's absolute modification timestamp with
`MaxAge` instead of subtracting it from the current time: three runs whose
files were modified at Unix time 1700000000 — i.e. freshly written, age 0
at that same instant — are all declared old, `ShouldCompact` fires and
`SelectTables` selects all three, although by the claim (age measured from
the last-modified time) no run is older than 3600 seconds. -/
theorem c6_time_based_ignores_current_time :
    timeShouldCompact newTimeBasedStrategyMaxAge newTimeBasedStrategyMinTables
      (List.replicate 3 ⟨some 1700000000⟩) = true ∧
    timeSelectTables newTimeBasedStrategyMaxAge
      (List.replicate 3 ⟨some 1700000000⟩) = List.replicate 3 ⟨some 1700000000⟩ ∧
    ((List.replicate 3 (StatTable.mk (some 1700000000))).filter
      (isOldSpec 1700000000 newTimeBasedStrategyMaxAge)).length = 0 := by
  refine ⟨by decide, by decide, by decide⟩

/-- C8, counterexample.  `bloom.New(0, 3)` does not fail — there is no
error path in the constructor — and the filter it returns panics on the
very first `Add` or `Contains` call (`idx % 0`). -/
theorem c8_new_zero_bits_succeeds_add_panics :
    (Bloom.new 0 3).bits = [] ∧
    (Bloom.new 0 3).add "a" = none ∧
    (Bloom.new 0 3).contains "a" = none := by
  refine ⟨rfl, by decide, by decide⟩

/-- C9, counterexample.  The line `"nokey"` has no tab separator — a
malformed record in the claim's sense — yet `Load` succeeds on a file
containing it: the scanning loop has no format-error path
(`len(parts) >= 1` always holds). -/
theorem c9_load_accepts_malformed :
    (splitTab "nokey").2 = none ∧
    SSTable.load 0 ["nokey"] = Except.ok (SSTable.loadT 0 ["nokey"]) := by
  exact ⟨by decide, rfl⟩

/-- C10.  A filter created with `hashCount = 0` derives no positions:
`Contains` returns `true` for every key — already on the fresh filter —
and `Add` changes no state. -/
theorem c10_zero_hash_filter_degenerate (m : Nat) (s : String) :
    (Bloom.new m 0).contains s = some true ∧
    (Bloom.new m 0).add s = some (Bloom.new m 0) := by
  constructor
  · simp [Bloom.contains, Bloom.containsT, Bloom.hashes, Bloom.new]
  · simp [Bloom.add, Bloom.addT, Bloom.hashes, Bloom.new]

/-- Every key in an `addAllT` batch is reported present afterwards. -/
theorem containsT_addAllT_mem (b : Bloom) (keys : List String) (s : String)
    (h : 0 < b.bits.length) (hs : s ∈ keys) :
    (b.addAllT keys).containsT s = true := by
  induction keys generalizing b with
  | nil => cases hs
  | cons a keys ih =>
    rcases List.mem_cons.mp hs with h' | h'
    · subst h'
      show ((b.addT s).addAllT keys).containsT s = true
      exact containsT_addAllT_mono _ _ _ (containsT_addT_self b s h)
    · show ((b.addT a).addAllT keys).containsT s = true
      exact ih (b.addT a) (by rw [addT_bits_length]; exact h) h'

/-- C3.  No false negatives: on a filter created with positive bit and
hash counts, after any prior additions, adding a key and then any number
of further keys leaves `Contains` answering `true` for it. -/
theorem c3_bloom_no_false_negative (m k : Nat) (key : String)
    (pre others : List String) (b : Bloom) (hm : 0 < m) (hk : 0 < k)
    (h : (Bloom.new m k).addAll (pre ++ key :: others) = some b) :
    b.contains key = some true := by
  have hlen0 : (Bloom.new m k).bits.length = m := by
    simp [Bloom.new]
  rw [addAll_eq_addAllT _ _ (by rw [hlen0]; exact hm)] at h
  obtain rfl : (Bloom.new m k).addAllT (pre ++ key :: others) = b :=
    Option.some.inj h
  have happ : (Bloom.new m k).addAllT (pre ++ key :: others)
      = (((Bloom.new m k).addAllT pre).addT key).addAllT others := by
    unfold Bloom.addAllT
    rw [List.foldl_append]
    rfl
  have hlen1 : ((Bloom.new m k).addAllT pre).bits.length = m := by
    rw [addAllT_bits_length, hlen0]
  have hcont : ((Bloom.new m k).addAllT (pre ++ key :: others)).containsT key
      = true := by
    rw [happ]
    exact containsT_addAllT_mono _ _ _
      (containsT_addT_self _ _ (by rw [hlen1]; exact hm))
  have hlen2 : ((Bloom.new m k).addAllT (pre ++ key :: others)).bits.length = m := by
    rw [addAllT_bits_length, hlen0]
  unfold Bloom.contains
  rw [if_neg, hcont]
  intro hcontra
  rw [hlen2] at hcontra
  omega

theorem c3_bloom_no_false_negative_witness :
    0 < 8 ∧ 0 < 3 ∧
    ∃ b, (Bloom.new 8 3).addAll ([] ++ "a" :: ["b"]) = some b ∧
      b.contains "a" = some true :=
  ⟨by decide, by decide, (Bloom.new 8 3).addAllT ["a", "b"],
    addAll_eq_addAllT _ _ (by decide),
    c3_bloom_no_false_negative 8 3 "a" [] ["b"] _ (by decide) (by decide)
      (addAll_eq_addAllT _ _ (by decide))⟩

/-- C8, amended.  Creation never fails, whatever the parameters; with a
positive bit count the new filter has all bits clear and no sequence of
`Add` calls can reach a state where `Add` or `Contains` panics. -/
theorem c8_new_positive_never_fails (m k : Nat) (keys : List String)
    (hm : 0 < m) :
    (Bloom.new m k).bits = List.replicate m 0 ∧
    ∃ b, (Bloom.new m k).addAll keys = some b ∧
      ∀ s, (b.add s).isSome ∧ (b.contains s).isSome := by
  have hlen0 : (Bloom.new m k).bits.length = m := by
    simp [Bloom.new]
  refine ⟨rfl, (Bloom.new m k).addAllT keys,
    addAll_eq_addAllT _ _ (by rw [hlen0]; exact hm), ?_⟩
  intro s
  have hlen : ((Bloom.new m k).addAllT keys).bits.length = m := by
    rw [addAllT_bits_length, hlen0]
  constructor
  · unfold Bloom.add
    rw [if_neg]
    · rfl
    · intro hcontra
      rw [hlen] at hcontra
      omega
  · unfold Bloom.contains
    rw [if_neg]
    · rfl
    · intro hcontra
      rw [hlen] at hcontra
      omega

theorem c8_new_positive_never_fails_witness :
    0 < 4 ∧
    ((Bloom.new 4 2).bits = List.replicate 4 0 ∧
      ∃ b, (Bloom.new 4 2).addAll ["x"] = some b ∧
        ∀ s, (b.add s).isSome ∧ (b.contains s).isSome) :=
  ⟨by decide, c8_new_positive_never_fails 4 2 ["x"] (by decide)⟩

/-- C9, amended.  Given its file's lines, `Load` always succeeds — no
format-error path exists — and the rebuilt filter reports present the
pre-tab prefix of every line, malformed lines included. -/
theorem c9_load_never_format_error (n : Nat) (ls : List String) (line : String)
    (h : line ∈ ls) :
    SSTable.load n ls = Except.ok (SSTable.loadT n ls) ∧
    (SSTable.loadT n ls).bloom.containsT (splitTab line).1 = true := by
  refine ⟨rfl, ?_⟩
  show ((Bloom.new (ls.length * 8 + 1) 3).addAllT
    (ls.map fun l => (splitTab l).1)).containsT (splitTab line).1 = true
  refine containsT_addAllT_mem _ _ _ ?_ (List.mem_map_of_mem _ h)
  simp [Bloom.new]

theorem c9_load_never_format_error_witness :
    "nokey" ∈ ["a\tb", "nokey"] ∧
    (SSTable.loadT 7 ["a\tb", "nokey"]).bloom.containsT
      (splitTab "nokey").1 = true :=
  ⟨by decide,
    (c9_load_never_format_error 7 ["a\tb", "nokey"] "nokey" (by decide)).2⟩

theorem bytesLe_total : ∀ x y : List Nat, bytesLe x y = true ∨ bytesLe y x = true
  | [], _ => Or.inl rfl
  | _ :: _, [] => Or.inr rfl
  | a :: as, b :: bs => by
    rcases Nat.lt_trichotomy a b with h | h | h
    · left
      simp [bytesLe, h]
    · subst h
      rcases bytesLe_total as bs with h' | h'
      · left
        simpa [bytesLe] using h'
      · right
        simpa [bytesLe] using h'
    · right
      simp [bytesLe, h]

theorem bytesLe_trans :
    ∀ x y z : List Nat, bytesLe x y = true → bytesLe y z = true →
      bytesLe x z = true
  | [], _, _, _, _ => rfl
  | _ :: _, [], _, hxy, _ => by simp [bytesLe] at hxy
  | _ :: _, _ :: _, [], _, hyz => by simp [bytesLe] at hyz
  | a :: as, b :: bs, c :: cs, hxy, hyz => by
    simp only [bytesLe] at hxy hyz ⊢
    rcases Nat.lt_trichotomy a b with hab | hab | hab
    · rcases Nat.lt_trichotomy b c with hbc | hbc | hbc
      · simp [Nat.lt_trans hab hbc]
      · subst hbc
        simp [hab]
      · rw [if_neg (by omega), if_pos (by omega)] at hyz
        simp at hyz
    · subst hab
      rcases Nat.lt_trichotomy a c with hac | hac | hac
      · simp [hac]
      · subst hac
        rw [if_neg (by omega), if_neg (by omega)] at hxy hyz ⊢
        exact bytesLe_trans as bs cs hxy hyz
      · rw [if_neg (by omega), if_pos hac] at hyz
        simp at hyz
    · rw [if_neg (by omega), if_pos (by omega)] at hxy
      simp at hxy

/-- C5, amended.  When every sequence number has a single decimal digit,
lexicographic file-name order agrees with numeric order, so sorting loaded
runs by path does recover recency order. -/
theorem c5_sorted_by_path_when_ids_single_digit (ts : List SSTable)
    (h : ∀ t ∈ ts, t.id < 10) :
    ((sortByPath ts).map SSTable.id).Sorted (· ≤ ·) := by
  have hkey : ∀ i, i < 10 → ∀ j, j < 10 →
      (strLe (pathOf i) (pathOf j) = true ↔ i ≤ j) := by decide
  haveI htr : IsTrans SSTable
      (fun a b => strLe (pathOf a.id) (pathOf b.id) = true) :=
    ⟨fun _ _ _ hab hbc => bytesLe_trans _ _ _ hab hbc⟩
  haveI hto : IsTotal SSTable
      (fun a b => strLe (pathOf a.id) (pathOf b.id) = true) :=
    ⟨fun a b => bytesLe_total _ _⟩
  have hsorted := List.sorted_insertionSort
    (fun a b : SSTable => strLe (pathOf a.id) (pathOf b.id) = true) ts
  have hperm := List.perm_insertionSort
    (fun a b : SSTable => strLe (pathOf a.id) (pathOf b.id) = true) ts
  rw [List.Sorted, List.pairwise_map]
  refine hsorted.imp_of_mem ?_
  intro a b ha hb hab
  have ha10 : a.id < 10 := h a (hperm.mem_iff.mp ha)
  have hb10 : b.id < 10 := h b (hperm.mem_iff.mp hb)
  exact (hkey a.id ha10 b.id hb10).mp hab

theorem c5_sorted_by_path_when_ids_single_digit_witness :
    (∀ t ∈ [SSTable.loadT 3 [], SSTable.loadT 1 []], t.id < 10) ∧
    ((sortByPath [SSTable.loadT 3 [], SSTable.loadT 1 []]).map
      SSTable.id).Sorted (· ≤ ·) :=
  ⟨by decide,
    c5_sorted_by_path_when_ids_single_digit
      [SSTable.loadT 3 [], SSTable.loadT 1 []] (by decide)⟩

theorem c7_arg_eq :
    -((100 : Nat) : ℝ) * Real.log (1 / 2) / (Real.log 2 * Real.log 2)
      = 100 / Real.log 2 := by
  have h2 : Real.log 2 ≠ 0 :=
    ne_of_gt (Real.log_pos (by norm_num))
  rw [one_div, Real.log_inv]
  push_cast
  field_simp
  ring

theorem c7_floor_val : ⌊(100 : ℝ) / Real.log 2⌋₊ = 144 := by
  have h2 : (0 : ℝ) < Real.log 2 := Real.log_pos (by norm_num)
  have hgt := Real.log_two_gt_d9
  have hlt := Real.log_two_lt_d9
  rw [Nat.floor_eq_iff (by positivity)]
  constructor
  · rw [le_div_iff₀ h2]
    push_cast
    nlinarith
  · rw [div_lt_iff₀ h2]
    push_cast
    nlinarith

theorem c7_ceil_val : ⌈(100 : ℝ) / Real.log 2⌉₊ = 145 := by
  have h2 : (0 : ℝ) < Real.log 2 := Real.log_pos (by norm_num)
  have hgt := Real.log_two_gt_d9
  have hlt := Real.log_two_lt_d9
  rw [Nat.ceil_eq_iff (by norm_num)]
  constructor
  · rw [lt_div_iff₀ h2]
    push_cast
    nlinarith
  · rw [div_le_iff₀ h2]
    push_cast
    nlinarith

/-- C7, counterexample.  At `n = 100`, `p = 1/2` the formula's value is
`100 / ln 2 ≈ 144.27`: the constructor's float-to-integer conversion
truncates it to a bit count of 144, whereas the claimed ceiling would give
145. -/
theorem c7_sizing_not_ceil :
    (newEnhancedParams 100 (1 / 2)).1 = 144 ∧
    (newEnhancedParamsSpec 100 (1 / 2)).1 = 145 := by
  constructor
  · simp only [newEnhancedParams, c7_arg_eq, c7_floor_val]
    norm_num
  · simp only [newEnhancedParamsSpec, c7_arg_eq, c7_ceil_val]
    norm_num

theorem clamp_m_eq (a : Nat) : (if a < 8 then 8 else a) = max 8 a := by
  split_ifs <;> omega

theorem clamp_k_eq (b : Nat) :
    (if (if b < 1 then 1 else b) > 10 then 10 else if b < 1 then 1 else b)
      = min 10 (max 1 b) := by
  split_ifs <;> omega

/-- C7, amended.  The constructor truncates (it does not take the ceiling
or round): `m = ⌊-n ln p / (ln 2)²⌋` and `k = ⌊(m/n) ln 2⌋` with `k`
computed from the unclamped `m`, and the results are then clamped so that
`m ≥ 8` and `1 ≤ k ≤ 10`. -/
theorem c7_sizing_truncated (n : Nat) (p : ℝ) :
    newEnhancedParams n p =
      (max 8 ⌊-(n : ℝ) * Real.log p / (Real.log 2 * Real.log 2)⌋₊,
        min 10 (max 1 ⌊(⌊-(n : ℝ) * Real.log p / (Real.log 2 * Real.log 2)⌋₊ : ℝ)
          / (n : ℝ) * Real.log 2⌋₊)) ∧
    8 ≤ (newEnhancedParams n p).1 ∧
    1 ≤ (newEnhancedParams n p).2 ∧ (newEnhancedParams n p).2 ≤ 10 := by
  simp only [newEnhancedParams]
  refine ⟨Prod.ext_iff.mpr ⟨?_, ?_⟩, ?_, ?_, ?_⟩ <;>
    simp only [clamp_m_eq, clamp_k_eq] <;> omega

end LSM
